import Mathlib

/-!
# Octopus — verification of the symbolic-bisimulation core

A shallow embedding, in Lean 4, of the parts of the Octopus P4-parser
equivalence checker that the specification claims talk about:

* the formula algebra of `src/bisimulation/formula.py`
  (variables, formula nodes, substitution, pure formulas, guarded formulas);
* the pop-phase decision logic and the leap computation of
  `symbolic_bisimulation` in `src/bisimulation/bisimulation.py`;
* the strongest-postcondition transformers of `src/program/component.py`
  (`Assignment.strongest_postcondition`, `Extract.strongest_postcondition`);
* the symbolic-transition lowering of `src/program/transition_block.py`,
  and the dictionary semantics of its select-case table, together with
  the `__eq__`/`__hash__` methods of `src/program/expression.py`;
* the uninitialised-variable handling of `constraint_to_smt`.

Python machine integers are modelled as `Int`; insertion-ordered
dictionaries as association lists with replace-or-append insertion;
raised exceptions as `Option`/failure results.  The `used_vars`
bookkeeping of `PureFormula` is not modelled: no claim mentions it and
it does not feed back into any modelled computation.
-/

namespace Octopus

/-- A bit-vector variable, `Variable` of `src/bisimulation/formula.py`:
a name together with a size.  The constructor guard (`size <= 0` raises
`ValueError`) is modelled separately by `mkVariable`. -/
structure FVar where
  name : String
  size : Int
deriving DecidableEq, Repr

/-- Model of `Variable.__init__`: raises `ValueError` ("Size of variable must be
greater than 0") when `size <= 0`; modelled as `none`. -/
def mkVariable (name : String) (size : Int) : Option FVar :=
  if size ≤ 0 then none else some ⟨name, size⟩

/-- The `FormulaManager` holds a monotone counter `_next_free_var_name`;
`fresh_name` stringifies and increments it.  The counter is incremented
even when the subsequent `Variable` construction raises. -/
def freshVariable (counter : Nat) (size : Int) : Option FVar × Nat :=
  (mkVariable (toString counter) size, counter + 1)

/-- Bit-vector expression trees occurring inside formulas: variables and
concatenation (`Variable` and `Concatenate` nodes). -/
inductive FExpr where
  | var (v : FVar)
  | concat (l r : FExpr)
deriving DecidableEq, Repr

/-- Formula nodes over a leaf expression type: `TRUE`, `And`, `Not`,
`Equals` of `src/bisimulation/formula.py`. -/
inductive Formula (α : Type) where
  | tru
  | and (l r : Formula α)
  | not (f : Formula α)
  | equals (l r : α)
deriving DecidableEq, Repr

/-- A substitution mapping (`dict[Variable, FormulaNode]`): an
insertion-ordered association list. -/
abbrev Subst := List (FVar × FExpr)

/-- Dictionary lookup `mapping.get(self, self)` used by
`Variable.substitute`. -/
def substLookup (m : Subst) (v : FVar) : Option FExpr :=
  match m with
  | [] => none
  | (k, e) :: rest => if k = v then some e else substLookup rest v

/-- The `substitute` method on expression trees: a variable is replaced by its
image when present, concatenation recurses. -/
def FExpr.subst (m : Subst) : FExpr → FExpr
  | .var v =>
      match substLookup m v with
      | some e => e
      | none => .var v
  | .concat l r => .concat (l.subst m) (r.subst m)

/-- The `substitute` method on formula nodes (structural recursion as in the
`FormulaNode` subclasses). -/
def Formula.subst (m : Subst) : Formula FExpr → Formula FExpr
  | .tru => .tru
  | .and l r => .and (l.subst m) (r.subst m)
  | .not f => .not (f.subst m)
  | .equals l r => .equals (l.subst m) (r.subst m)

/-- Replace-or-append insertion into an insertion-ordered dictionary
with structural key equality (Python `dict` assignment for keys whose
`__eq__`/`__hash__` are structural, as for `Variable` and the
`(name, left)` pairs of `header_field_vars`). -/
def dictSet {κ ν : Type} [DecidableEq κ] (d : List (κ × ν)) (k : κ) (v : ν) :
    List (κ × ν) :=
  match d with
  | [] => [(k, v)]
  | (k', v') :: rest =>
      if k' = k then (k', v) :: rest else (k', v') :: dictSet rest k v

/-- First-match lookup in an insertion-ordered dictionary. -/
def dictGet {κ ν : Type} [DecidableEq κ] (d : List (κ × ν)) (k : κ) : Option ν :=
  match d with
  | [] => none
  | (k', v') :: rest => if k' = k then some v' else dictGet rest k

/-- Model of `PureFormula` from `src/bisimulation/formula.py`: a root formula, the
`header_field_vars` dictionary keyed by `(field name, left)`, and the
`buf_vars` dictionary over the two sides (its two possible keys are
modelled as the two fields `bufL`/`bufR`; a missing key and a stored
`None` are observationally the same through `get_buffer_var`). -/
structure PureFormula where
  root : Formula FExpr
  headerFieldVars : List ((String × Bool) × FVar)
  bufL : Option FVar
  bufR : Option FVar
deriving DecidableEq, Repr

/-- Model of `PureFormula.get_header_field_var`. -/
def getHeaderFieldVar (pf : PureFormula) (name : String) (left : Bool) :
    Option FVar :=
  dictGet pf.headerFieldVars (name, left)

/-- Model of `PureFormula.set_header_field_var`. -/
def setHeaderFieldVar (pf : PureFormula) (name : String) (left : Bool)
    (v : FVar) : PureFormula :=
  { pf with headerFieldVars := dictSet pf.headerFieldVars (name, left) v }

/-- Model of `PureFormula.get_buffer_var`. -/
def getBufferVar (pf : PureFormula) (left : Bool) : Option FVar :=
  if left then pf.bufL else pf.bufR

/-- Model of `PureFormula.set_buffer_var` (also used with `None`). -/
def setBufferVar (pf : PureFormula) (left : Bool) (v : Option FVar) :
    PureFormula :=
  if left then { pf with bufL := v } else { pf with bufR := v }

/-- Model of `PureFormula.substitute`: rewrites the root in place (the
`used_vars` filtering is bookkeeping that is not modelled). -/
def PureFormula.substitute (pf : PureFormula) (m : Subst) : PureFormula :=
  { pf with root := pf.root.subst m }

/-- Model of `GuardedFormula`: two state names, two buffered-bit counts, a pure
formula, and an optional predecessor. -/
inductive GuardedFormula where
  | mk (stateL stateR : String) (bufLenL bufLenR : Int)
       (pf : PureFormula) (prev : Option GuardedFormula)

def GuardedFormula.stateL : GuardedFormula → String
  | .mk s _ _ _ _ _ => s

def GuardedFormula.stateR : GuardedFormula → String
  | .mk _ s _ _ _ _ => s

def GuardedFormula.bufLenL : GuardedFormula → Int
  | .mk _ _ b _ _ _ => b

def GuardedFormula.bufLenR : GuardedFormula → Int
  | .mk _ _ _ b _ _ => b

def GuardedFormula.pf : GuardedFormula → PureFormula
  | .mk _ _ _ _ p _ => p

def GuardedFormula.prev : GuardedFormula → Option GuardedFormula
  | .mk _ _ _ _ _ p => p

/-- Model of `GuardedFormula.initial_guard`: the classmethod takes no arguments;
it builds `(start, start, 0, 0, PureFormula(TRUE()), None)` — the pure
formula's `header_field_vars` and `buf_vars` dictionaries are left at
their empty defaults. -/
def GuardedFormula.initialGuard : GuardedFormula :=
  .mk "start" "start" 0 0 ⟨Formula.tru, [], none, none⟩ none

/-- The function `symbolic_bisimulation` initialises the work queue as the singleton
`[GuardedFormula.initial_guard()]`. -/
def initialWorkQueue : List GuardedFormula :=
  [GuardedFormula.initialGuard]

/-- Model of `is_terminal`: membership of `["accept", "reject"]`. -/
def isTerminal (s : String) : Bool :=
  s == "accept" || s == "reject"

/-- The fate of a popped guarded formula in the part of the main loop
before the leap/extension/enqueue phase (`symbolic_bisimulation`,
bisimulation.py lines 256–280):

* `drop`: `has_new_information` returned false — `continue`, nothing
  recorded, no successors;
* `report`: the function returns `(False, trace)` — nothing recorded,
  no successors;
* `absorb`: both states terminal — `knowledge.add(g)` then `continue`,
  no successors;
* `proceed`: fall through to the leap computation, buffer extension and
  successor enqueueing (lines 282–391), the only path on which
  successors can be enqueued.
-/
inductive PopResult where
  | drop
  | report
  | absorb
  | proceed
deriving DecidableEq, Repr

/-- The decision chain executed on a popped guarded formula, in source
order.  `hasNewInfo` is the boolean returned by `has_new_information`
(the solver call), `constraintPresent` is `constraint is not None`, and
`constraintValid` is the boolean returned by
`s.is_valid(constraint_to_smt(constraint, current_pf))`. -/
def popPhase (g : GuardedFormula)
    (hasNewInfo constraintPresent constraintValid : Bool) : PopResult :=
  if !hasNewInfo then .drop
  else if (g.stateL == "accept") != (g.stateR == "accept") then .report
  else if constraintPresent && !constraintValid then .report
  else if isTerminal g.stateL && isTerminal g.stateR then .absorb
  else .proceed

/-- The leap computation of `symbolic_bisimulation` (bisimulation.py
lines 298–308), with `reject_l`/`reject_r` the flags
`state_l == "reject"`/`state_r == "reject"` and the operation-block
sizes and buffered-bit counts as plain integers.  There is no guard
ensuring the result is positive. -/
def computeLeap (enableLeaps rejectL rejectR : Bool)
    (opSizeL opSizeR bufLenL bufLenR : Int) : Int :=
  if enableLeaps then
    if !rejectL && !rejectR then
      min (opSizeL - bufLenL) (opSizeR - bufLenR)
    else if !rejectL then opSizeL - bufLenL
    else if !rejectR then opSizeR - bufLenR
    else 1
  else 1

/-- Model of `sum(self.header_content.values())`: the bit size of an extracted
header, from its ordered field dictionary. -/
def sumFieldWidths (fields : List (String × Int)) : Int :=
  fields.foldl (fun acc f => acc + f.2) 0

/-- The per-field loop of `Extract.strongest_postcondition`
(component.py lines 151–163).  For each `(field, field_size)` of
`header_content` in source order: allocate a fresh variable, extend the
renaming substitution when the store already held a variable for the
field, install the fresh variable in `header_field_vars`, and grow
`new_buffer` by `Concatenate(variable, new_buffer)` (the fresh variable
on the most-significant side).  A failing `Variable` construction
(`ValueError`) aborts the whole call. -/
def extractLoop (left : Bool) (headerReference : String) :
    List (String × Int) → Nat → PureFormula → Subst → Option FExpr →
    Option (Nat × PureFormula × Subst × Option FExpr)
  | [], m, pf, subst, newBuffer => some (m, pf, subst, newBuffer)
  | (field, fieldSize) :: rest, m, pf, subst, newBuffer =>
      match freshVariable m fieldSize with
      | (none, _) => none
      | (some fieldVar, m') =>
          let storeName := headerReference ++ "." ++ field
          let subst' :=
            match getHeaderFieldVar pf storeName left with
            | some oldVariable => dictSet subst oldVariable (FExpr.var fieldVar)
            | none => subst
          let pf' := setHeaderFieldVar pf storeName left fieldVar
          let newBuffer' : Option FExpr :=
            match newBuffer with
            | none => some (FExpr.var fieldVar)
            | some nb => some (FExpr.concat (FExpr.var fieldVar) nb)
          extractLoop left headerReference rest m' pf' subst' newBuffer'

/-- Model of `Extract.strongest_postcondition` (component.py lines 135–168).

* A missing buffer variable raises `ValueError` (modelled `none`).
* With `length = len(buffer_var) - size`: when `length <= 0` the buffer
  variable is set to `None` and no remainder is allocated; otherwise a
  fresh remainder variable is allocated — but `set_buffer_var` is *not*
  called in that branch, so `buf_vars` keeps the old variable.
* The field loop (`extractLoop`) then runs, and finally the old buffer
  variable is mapped to the accumulated concatenation and the whole
  substitution is applied to the root.  When `header_content` is empty
  and `length <= 0` the accumulated buffer is `None` and the Python
  code would substitute `None` into the tree; that poisoned state is
  modelled as failure. -/
def extractSP (manager : Nat) (pf : PureFormula) (left : Bool)
    (headerReference : String) (headerContent : List (String × Int)) :
    Option (PureFormula × Nat) :=
  match getBufferVar pf left with
  | none => none
  | some bufferVar =>
    let size := sumFieldWidths headerContent
    let length := bufferVar.size - size
    if length ≤ 0 then
      let pf0 := setBufferVar pf left none
      match extractLoop left headerReference headerContent manager pf0 [] none
        with
      | none => none
      | some (m1, pf1, subst, newBuffer) =>
          match newBuffer with
          | none => none
          | some newBufferE =>
              some (pf1.substitute (dictSet subst bufferVar newBufferE), m1)
    else
      match freshVariable manager (bufferVar.size - size) with
      | (none, _) => none
      | (some remainder, m0) =>
          match extractLoop left headerReference headerContent m0 pf []
            (some (FExpr.var remainder)) with
          | none => none
          | some (m1, pf1, subst, newBuffer) =>
              match newBuffer with
              | none => none
              | some newBufferE =>
                  some (pf1.substitute (dictSet subst bufferVar newBufferE), m1)

/-- Model of `Assignment.strongest_postcondition` (component.py lines 85–96).
It looks up the current variable of the left-hand side (a missing entry
makes `len(None)` raise `TypeError`), allocates a fresh variable of the
same width, substitutes the *old* variable by the fresh one throughout
the root, leaves `header_field_vars` unchanged — and then calls
`PureFormula.clone_with_new_root`, a method that does not exist on
either `PureFormula` class of the repository, so every call raises
`AttributeError` before returning.  The unreachable intended result is
modelled by the final `none`. -/
def assignmentSP (manager : Nat) (pf : PureFormula) (left : Bool)
    (lhsReference : String) : Option (PureFormula × Nat) :=
  match getHeaderFieldVar pf lhsReference left with
  | none => none
  | some referenceVar =>
      match freshVariable manager referenceVar.size with
      | (none, _) => none
      | (some newVar, _) =>
          let _pf1 := pf.substitute [(referenceVar, FExpr.var newVar)]
          -- `PureFormula.clone_with_new_root(pf, And(pf.root,
          -- Equals(reference_var, self.right)))` raises `AttributeError`:
          -- no such attribute exists on either `PureFormula` class.
          none

/-- Pattern/selector expressions of `src/program/expression.py` as far
as select-case keys and guards need them.  `constant` carries the IR
numeric value and the width resolved from context; `dontCare` is
`DontCare`; `reference` stands for a `Member`/`PathExpression` node,
whose Python `__eq__`/`__hash__` are the default identity semantics —
the `tag` models the object identity of the parsed node. -/
inductive PExpr where
  | constant (value : Int) (width : Int)
  | dontCare
  | reference (tag : Nat)
deriving DecidableEq, Repr

/-- The codomain of Python `hash` on pattern expressions.
`Constant.__hash__` is `hash(self.numeric_value)` (the width is
ignored); `DontCare.__hash__` is `hash("DontCare")`; `Reference` keeps
the default identity hash.  Values of the three constructors are taken
as pairwise distinct (an `int`/`str`/`id` hash collision is possible in
Python but astronomically unlikely and run-dependent). -/
inductive PyHash where
  | int (v : Int)
  | str (s : String)
  | obj (tag : Nat)
deriving DecidableEq, Repr

def pyHash : PExpr → PyHash
  | .constant v _ => .int v
  | .dontCare => .str "DontCare"
  | .reference t => .obj t

/-- Python `==` between pattern expressions.  `DontCare.__eq__` returns
`True` for every operand (and is reached by reflected lookup when
`DontCare` is on the right); `Constant.__eq__` compares only
`numeric_value`; `Constant == Reference` falls through `NotImplemented`
on both sides to the default identity comparison (distinct objects, so
`False`); two references compare by identity. -/
def pyEq : PExpr → PExpr → Bool
  | .dontCare, _ => true
  | _, .dontCare => true
  | .constant v _, .constant v' _ => v == v'
  | .constant _ _, .reference _ => false
  | .reference _, .constant _ _ => false
  | .reference t, .reference t' => t == t'

/-- Python `==` on pattern tuples: equal length and componentwise
`pyEq`. -/
def keysEq : List PExpr → List PExpr → Bool
  | [], [] => true
  | p :: ps, q :: qs => pyEq p q && keysEq ps qs
  | _, _ => false

/-- The tuple hash, modelled as the list of component hashes (two
tuples collide in a dict bucket exactly when their component hashes
agree, again up to combinator collisions). -/
def keysHash (ks : List PExpr) : List PyHash :=
  ks.map pyHash

/-- CPython dict insertion `self._cases[tuple(for_exprs)] = state`:
the probe finds a stored key whose hash equals the new key's hash and
which compares `==` to it; if found, the *value* is replaced and the
stored key object is kept; otherwise the pair is appended in insertion
order. -/
def caseDictInsert (d : List (List PExpr × String)) (k : List PExpr)
    (v : String) : List (List PExpr × String) :=
  match d with
  | [] => [(k, v)]
  | (k', v') :: rest =>
      if keysHash k' = keysHash k ∧ keysEq k' k = true then (k', v) :: rest
      else (k', v') :: caseDictInsert rest k v

/-- CPython dict lookup `self._cases[key]` with the same hash-and-eq
probe. -/
def caseDictGet (d : List (List PExpr × String)) (k : List PExpr) :
    Option String :=
  match d with
  | [] => none
  | (k', v') :: rest =>
      if keysHash k' = keysHash k ∧ keysEq k' k = true then some v'
      else caseDictGet rest k

/-- The case-storing loop of
`TransitionBlock._parse_select_expression` (transition_block.py lines
104–119): each parsed `(pattern tuple, target state)` is assigned into
the `_cases` dictionary in source order. -/
def parseSelectCases (cs : List (List PExpr × String)) :
    List (List PExpr × String) :=
  cs.foldl (fun d c => caseDictInsert d c.1 c.2) []

/-- Model of `isinstance(expr, DontCare)`. -/
def isDontCare : PExpr → Bool
  | .dontCare => true
  | _ => false

/-- The per-case match formula of
`TransitionBlock.symbolic_transition` (transition_block.py lines
136–143): starting from `TRUE()`, every non-`DontCare` pattern at
position `i` contributes `And(acc, Equals(pattern, selectors[i]))`;
indexing past the end of the selector list raises `IndexError`
(modelled `none`).  The `deepcopy`/`to_formula` resolution step does
not change the tree shape and is absorbed by the abstract valuation
used in the semantics below. -/
def matchOfCaseGo (selectors : List PExpr) :
    Nat → List PExpr → Formula PExpr → Option (Formula PExpr)
  | _, [], acc => some acc
  | i, p :: ps, acc =>
      if isDontCare p then matchOfCaseGo selectors (i + 1) ps acc
      else
        match selectors.get? i with
        | none => none
        | some s => matchOfCaseGo selectors (i + 1) ps (.and acc (.equals p s))

def matchOfCase (selectors : List PExpr) (pats : List PExpr) :
    Option (Formula PExpr) :=
  matchOfCaseGo selectors 0 pats Formula.tru

/-- Model of `appended_formula = formula; for seen_formula in seen:
appended_formula = And(appended_formula, Not(seen_formula))`.  In the
source `seen` is a Python `set` iterated in unspecified order; the
model fixes insertion order, and the properties proved below are
insensitive to the order of the conjuncts. -/
def negSeen (f : Formula PExpr) (seen : List (Formula PExpr)) :
    Formula PExpr :=
  seen.foldl (fun acc s => .and acc (.not s)) f

/-- The case loop of `TransitionBlock.symbolic_transition`
(transition_block.py lines 133–149), producing the guarded targets in
case order (the source collects them in a `set`; the model keeps the
iteration order of `_cases`). -/
def symbolicTransitionGo (selectors : List PExpr)
    (seen : List (Formula PExpr)) :
    List (List PExpr × String) → Option (List (Formula PExpr × String))
  | [] => some []
  | (pats, toState) :: rest =>
      match matchOfCase selectors pats with
      | none => none
      | some formula =>
          match symbolicTransitionGo selectors (seen ++ [formula]) rest with
          | none => none
          | some tail => some ((negSeen formula seen, toState) :: tail)

/-- Model of `TransitionBlock.symbolic_transition` (transition_block.py lines
123–154), including the selector-free branch
`{(TRUE(), self._cases[tuple([DontCare()])])}` whose dictionary lookup
may raise `KeyError`. -/
def symbolicTransition (selectors : List PExpr)
    (cases : List (List PExpr × String)) :
    Option (List (Formula PExpr × String)) :=
  if selectors = [] then
    (caseDictGet cases [PExpr.dontCare]).map fun t => [(Formula.tru, t)]
  else
    symbolicTransitionGo selectors [] cases

/-- Boolean semantics of a guard formula under an abstract valuation of
the pattern/selector expressions (a model of their `to_smt` bit-vector
values). -/
def evalFormula (val : PExpr → Int) : Formula PExpr → Bool
  | .tru => true
  | .and l r => evalFormula val l && evalFormula val r
  | .not f => !evalFormula val f
  | .equals l r => val l == val r

/-- SMT-level terms produced by `constraint_to_smt` (bisimulation.py
lines 127–197): bit-vector variables and concatenations, the boolean
constants `pysmt.TRUE()`/`pysmt.FALSE()`, equalities and negation. -/
inductive Term where
  | var (v : FVar)
  | concat (l r : Term)
  | btrue
  | bfalse
  | eq (l r : Term)
  | tnot (t : Term)
deriving DecidableEq, Repr

/-- The value sublanguage of a constraint relation: quoted field names
(`ast.Constant` strings) and `+` (bit-vector concatenation). -/
inductive VExpr where
  | field (path : String)
  | add (l r : VExpr)
deriving DecidableEq, Repr

/-- The header-variable environment a constraint is evaluated against:
`pf.get_header_field_var(name, left)`. -/
abbrev HVarEnv := String → Bool → Option FVar

/-- Model of `_eval` of `constraint_to_smt` on the value sublanguage, for a
fixed side: an unresolved field yields `None`; `+` with exactly one
`None` operand yields `pysmt.FALSE()`, with two `None` operands
propagates `None`, and otherwise builds `BVConcat`. -/
def evalValue (env : HVarEnv) (left : Bool) : VExpr → Option Term
  | .field p => (env p left).map Term.var
  | .add l r =>
      match evalValue env left l, evalValue env left r with
      | some a, some b => some (.concat a b)
      | none, none => none
      | _, _ => some .bfalse

inductive CmpOp where
  | eq
  | ne
deriving DecidableEq, Repr

/-- Model of `_eval` of `constraint_to_smt` on an `ast.Compare` node
(bisimulation.py lines 165–190): the left operand is evaluated with
`left=True`, the comparator with `left=False`; exactly one `None`
yields `pysmt.FALSE()`, two `None`s yield `pysmt.TRUE()`, and otherwise
the comparison becomes `Equals`/`Not(Equals)`. -/
def evalCompare (env : HVarEnv) (op : CmpOp) (l r : VExpr) : Term :=
  match evalValue env true l, evalValue env false r with
  | none, none => .btrue
  | some a, some b =>
      match op with
      | .eq => .eq a b
      | .ne => .tnot (.eq a b)
  | _, _ => .bfalse

/-- The field paths syntactically reachable in a value expression. -/
def fieldPaths : VExpr → List String
  | .field p => [p]
  | .add l r => fieldPaths l ++ fieldPaths r

/-- The list of per-case match formulas of a transition block, in case
order (the value `matchOfCase` computes for each stored case). -/
def matchesOf (selectors : List PExpr) :
    List (List PExpr × String) → Option (List (Formula PExpr))
  | [] => some []
  | c :: rest =>
      match matchOfCase selectors c.1 with
      | none => none
      | some m =>
          match matchesOf selectors rest with
          | none => none
          | some ms => some (m :: ms)

/-- The fresh variables `Extract.strongest_postcondition` allocates for
a field list, in source order, starting at a given manager counter:
the i-th field receives the name `toString (base + i)` and its
IR-declared width. -/
def fieldVarsFrom (base : Nat) : List (String × Int) → List FVar
  | [] => []
  | f :: fs => ⟨toString base, f.2⟩ :: fieldVarsFrom (base + 1) fs

/-- The `header_field_vars` entries installed by an extract of the
given field list: the store names `headerReference ++ "." ++ field`
paired with the fresh variables of `fieldVarsFrom`. -/
def newHeaderEntries (headerReference : String) (left : Bool) (base : Nat) :
    List (String × Int) → List ((String × Bool) × FVar)
  | [] => []
  | f :: fs =>
      ((headerReference ++ "." ++ f.1, left), ⟨toString base, f.2⟩)
        :: newHeaderEntries headerReference left (base + 1) fs

/-- Left-to-right bit-vector concatenation of a variable list on top of
a least-significant tail: `msbChainE t [g1, …, gk]` is
`g1 ++ (g2 ++ ( … ++ (gk ++ t)))` with `g1` most significant. -/
def msbChainE (t : FExpr) : List FVar → FExpr
  | [] => t
  | v :: vs => FExpr.concat (FExpr.var v) (msbChainE t vs)

/-- The buffer-accumulation of the extract loop as a standalone
function: each variable is concatenated on the most-significant side of
the accumulator (`Concatenate(variable, new_buffer)`). -/
def chainFrom : Option FExpr → List FVar → Option FExpr
  | nb, [] => nb
  | none, v :: vs => chainFrom (some (FExpr.var v)) vs
  | some e, v :: vs => chainFrom (some (FExpr.concat (FExpr.var v) e)) vs

/-! ## Theorems -/

/-- Claim C4 (amended): engine initialisation enqueues exactly the one
guarded formula `(start, start, 0, 0, PF(TRUE), no predecessor)`, and
the initial pure formula's `header_vars` is empty — no header-field
variable is allocated at initialisation (variables are created lazily
by `Extract.strongest_postcondition`). -/
theorem initialisation_behaviour :
    initialWorkQueue = [GuardedFormula.initialGuard] ∧
    GuardedFormula.initialGuard.stateL = "start" ∧
    GuardedFormula.initialGuard.stateR = "start" ∧
    GuardedFormula.initialGuard.bufLenL = 0 ∧
    GuardedFormula.initialGuard.bufLenR = 0 ∧
    GuardedFormula.initialGuard.pf.root = Formula.tru ∧
    GuardedFormula.initialGuard.prev = none ∧
    ∀ (name : String) (side : Bool),
      getHeaderFieldVar GuardedFormula.initialGuard.pf name side = none := by
  refine ⟨rfl, rfl, rfl, rfl, rfl, rfl, rfl, ?_⟩
  intro name side
  rfl

/-- Claim C4, counterexample to the claim as stated: the initial pure
formula holds no variable for any declared header field — here the
field `hdr.eth.dst` of the 48-bit Ethernet header of the identity
scenario — although the claim requires a fresh variable per declared
field to be installed before the main loop runs.
(`GuardedFormula.initial_guard` takes no parser argument at all.) -/
theorem initialGuard_lacks_declared_field_variables :
    ¬ ∃ v, getHeaderFieldVar GuardedFormula.initialGuard.pf "hdr.eth.dst" true
             = some v := by
  rintro ⟨v, hv⟩
  exact Option.noConfusion hv

/-- Claim C1 (amended): when exactly one of the popped states equals
`accept` and the formula passed the subsumption check, the loop reports
a counterexample unconditionally — the disagreeing filter is not
consulted at this decision (the constraint check at bisimulation.py
line 272 is unreachable after the return at line 270), and the guarded
formula is not absorbed into knowledge. -/
theorem popPhase_mismatch_reports (g : GuardedFormula)
    (constraintPresent constraintValid : Bool)
    (hmis : ((g.stateL == "accept") != (g.stateR == "accept")) = true) :
    popPhase g true constraintPresent constraintValid = PopResult.report := by
  simp [popPhase, hmis]

theorem popPhase_mismatch_reports_witness :
    popPhase (GuardedFormula.mk "accept" "reject" 0 0
        ⟨Formula.tru, [], none, none⟩ none) true true false
      = PopResult.report :=
  popPhase_mismatch_reports
    (GuardedFormula.mk "accept" "reject" 0 0 ⟨Formula.tru, [], none, none⟩ none)
    true false (by decide)

/-- Claim C1, counterexample to the claim as stated: with
`state_l = accept`, `state_r = reject`, a supplied filter whose
satisfiability/validity oracle answers `false`, the code still reports
a counterexample and does not absorb the formula into knowledge,
whereas the claim requires absorption when the filter is not
satisfiable. -/
theorem popPhase_ignores_unsatisfiable_filter :
    popPhase (GuardedFormula.mk "accept" "reject" 0 0
        ⟨Formula.tru, [], none, none⟩ none) true true false
      = PopResult.report ∧
    popPhase (GuardedFormula.mk "accept" "reject" 0 0
        ⟨Formula.tru, [], none, none⟩ none) true true false
      ≠ PopResult.absorb := by
  constructor
  · rfl
  · intro h
    exact PopResult.noConfusion h

/-- Claim C7 (amended): a popped guarded formula with both states in
`{accept, reject}` never reaches the successor-enqueueing phase (so no
successors are ever enqueued from it), and it is recorded into
knowledge exactly when it survives the subsumption check, the
accept-mismatch check and the filter-validity check. -/
theorem popPhase_terminal_spec (g : GuardedFormula)
    (hasNewInfo constraintPresent constraintValid : Bool)
    (ht : isTerminal g.stateL = true ∧ isTerminal g.stateR = true) :
    popPhase g hasNewInfo constraintPresent constraintValid
      ≠ PopResult.proceed ∧
    (popPhase g hasNewInfo constraintPresent constraintValid
        = PopResult.absorb ↔
      hasNewInfo = true ∧
      ((g.stateL == "accept") != (g.stateR == "accept")) = false ∧
      (constraintPresent && !constraintValid) = false) := by
  obtain ⟨hl, hr⟩ := ht
  unfold popPhase
  cases hasNewInfo
  · simp
  · simp only [hl, hr]
    split_ifs <;> simp_all

theorem popPhase_terminal_spec_witness :
    popPhase (GuardedFormula.mk "reject" "reject" 0 0
        ⟨Formula.tru, [], none, none⟩ none) true false false
      ≠ PopResult.proceed ∧
    (popPhase (GuardedFormula.mk "reject" "reject" 0 0
        ⟨Formula.tru, [], none, none⟩ none) true false false
        = PopResult.absorb ↔
      true = true ∧
      (((GuardedFormula.mk "reject" "reject" 0 0
          ⟨Formula.tru, [], none, none⟩ none).stateL == "accept")
        != ((GuardedFormula.mk "reject" "reject" 0 0
          ⟨Formula.tru, [], none, none⟩ none).stateR == "accept")) = false ∧
      (false && !false) = false) :=
  popPhase_terminal_spec
    (GuardedFormula.mk "reject" "reject" 0 0 ⟨Formula.tru, [], none, none⟩ none)
    true false false ⟨rfl, rfl⟩

/-- Claim C7, counterexample to the claim as stated: the pair
`(accept, reject)` has both states terminal, yet the popped formula is
reported as a counterexample and is *not* recorded into knowledge,
whereas the claim asserts that every popped formula with both states in
`{accept, reject}` is recorded. -/
theorem popPhase_terminal_pair_not_recorded :
    isTerminal "accept" = true ∧ isTerminal "reject" = true ∧
    popPhase (GuardedFormula.mk "accept" "reject" 0 0
        ⟨Formula.tru, [], none, none⟩ none) true false false
      = PopResult.report ∧
    popPhase (GuardedFormula.mk "accept" "reject" 0 0
        ⟨Formula.tru, [], none, none⟩ none) true false false
      ≠ PopResult.absorb := by
  refine ⟨rfl, rfl, rfl, ?_⟩
  intro h
  exact PopResult.noConfusion h

/-- Claim C6: evaluation of the leap computation at a state whose
operation block contains no extracts.  With leaps enabled, both sides
non-terminal, `op_size_l = 0`, `buf_len_l = 0` (and any positive gap on
the right), the computed leap is `0`, not positive; the subsequent
`manager.fresh_variable(leap)` call then raises `ValueError`
("Size of variable must be greater than 0"), modelled by
`freshVariable` returning no variable.  The claimed fall-back to `1`
when no progress is possible does not exist in the code. -/
theorem computeLeap_zero_for_extractless_state :
    computeLeap true false false 0 32 0 0 = 0 ∧
    ¬ 0 < computeLeap true false false 0 32 0 0 ∧
    (freshVariable 7 (computeLeap true false false 0 32 0 0)).1 = none := by
  decide

/-- Claim C3: evaluation of `Assignment.strongest_postcondition` at a
well-formed input (the left-hand side `hdr.a` holds an 8-bit variable).
The call raises `AttributeError` — it ends in
`PureFormula.clone_with_new_root`, a method that exists on neither
`PureFormula` class of the repository — so no pure formula is ever
returned; before failing it has also substituted the *old* variable by
the fresh one inside the root and left `header_field_vars` unchanged,
the reverse of the claimed update. -/
theorem assignmentSP_always_raises :
    assignmentSP 0 ⟨Formula.tru, [(("hdr.a", true), ⟨"v", 8⟩)], none, none⟩
        true "hdr.a" = none := by
  rfl

/-- A value expression all of whose field paths are unresolved
evaluates to `None`. -/
theorem evalValue_none_of_unresolved (env : HVarEnv) (left : Bool) :
    ∀ e : VExpr, (∀ p ∈ fieldPaths e, env p left = none) →
      evalValue env left e = none := by
  intro e
  induction e with
  | field p =>
      intro h
      have hp := h p (by simp [fieldPaths])
      simp [evalValue, hp]
  | add l r ihl ihr =>
      intro h
      have hl := ihl fun p hp => h p (by simp [fieldPaths]; exact Or.inl hp)
      have hr := ihr fun p hp => h p (by simp [fieldPaths]; exact Or.inr hp)
      simp [evalValue, hl, hr]

/-- Claim C8: uninitialised-variable semantics of the constraint
compiler.  For a comparison: when every field path on both sides is
unresolved the relation evaluates to `TRUE` (trivially satisfied); when
exactly one side resolves the relation evaluates to `FALSE`; when both
sides resolve the ordinary bit-vector comparison (`Equals`, or its
negation for `!=`) is produced. -/
theorem evalCompare_uninitialised_semantics (env : HVarEnv) (op : CmpOp)
    (l r : VExpr) :
    ((∀ p ∈ fieldPaths l, env p true = none) →
      (∀ p ∈ fieldPaths r, env p false = none) →
      evalCompare env op l r = Term.btrue) ∧
    (∀ a, evalValue env true l = some a → evalValue env false r = none →
      evalCompare env op l r = Term.bfalse) ∧
    (∀ b, evalValue env true l = none → evalValue env false r = some b →
      evalCompare env op l r = Term.bfalse) ∧
    (∀ a b, evalValue env true l = some a → evalValue env false r = some b →
      evalCompare env op l r =
        (match op with
         | CmpOp.eq => Term.eq a b
         | CmpOp.ne => Term.tnot (Term.eq a b))) := by
  refine ⟨?_, ?_, ?_, ?_⟩
  · intro hL hR
    have h1 := evalValue_none_of_unresolved env true l hL
    have h2 := evalValue_none_of_unresolved env false r hR
    simp [evalCompare, h1, h2]
  · intro a ha hb
    simp [evalCompare, ha, hb]
  · intro b ha hb
    simp [evalCompare, ha, hb]
  · intro a b ha hb
    simp [evalCompare, ha, hb]

theorem evalCompare_uninitialised_semantics_witness :
    evalCompare (fun _ _ => none) CmpOp.eq
        (VExpr.field "hdr.ipv4.src") (VExpr.field "hdr.ipv4.dst")
      = Term.btrue :=
  (evalCompare_uninitialised_semantics (fun _ _ => none) CmpOp.eq
      (VExpr.field "hdr.ipv4.src") (VExpr.field "hdr.ipv4.dst")).1
    (fun _ _ => rfl) (fun _ _ => rfl)

/-- Inserting under a key that hash-and-eq-matches an existing entry
replaces that entry's value, keeps every stored key (in particular the
matched entry keeps the *earlier* tuple as its key), and makes the
lookup of the new key return the new value. -/
theorem caseDictInsert_match_spec (k : List PExpr) (s : String) :
    ∀ d : List (List PExpr × String),
      (∃ kv ∈ d, keysHash kv.1 = keysHash k ∧ keysEq kv.1 k = true) →
      (caseDictInsert d k s).map Prod.fst = d.map Prod.fst ∧
      caseDictGet (caseDictInsert d k s) k = some s := by
  intro d
  induction d with
  | nil => rintro ⟨kv, hmem, _⟩; simp at hmem
  | cons hd rest ih =>
      rintro ⟨kv, hmem, hkv⟩
      by_cases h : keysHash hd.1 = keysHash k ∧ keysEq hd.1 k = true
      · constructor
        · simp [caseDictInsert, h]
        · simp [caseDictInsert, h, caseDictGet]
      · have hkvrest : kv ∈ rest := by
          rcases List.mem_cons.mp hmem with heq | hrest
          · exact absurd (heq ▸ hkv) h
          · exact hrest
        have ihr := ih ⟨kv, hkvrest, hkv⟩
        constructor
        · simp [caseDictInsert, h, ihr.1]
        · simp [caseDictInsert, caseDictGet, h, ihr.2]

/-- Claim C10 (amended): select-case pattern equality ignores the width
of constants and `DontCare` compares equal to everything; constant
hashes also ignore width and all `DontCare`s hash alike, so when a
later case's pattern tuple compares equal *and hashes equal* to an
earlier one — as for two default cases, or two constants with the same
value and different widths — the later case silently replaces the
earlier case's target state: the table keeps its keys (the earlier
tuple survives as the stored key) and its size, and the lookup of the
pattern now yields the later target. -/
theorem selectCase_dict_collapse (v w w' : Int) (e : PExpr)
    (d : List (List PExpr × String)) (k : List PExpr) (s : String)
    (hmatch : ∃ kv ∈ d, keysHash kv.1 = keysHash k ∧ keysEq kv.1 k = true) :
    pyEq (PExpr.constant v w) (PExpr.constant v w') = true ∧
    pyHash (PExpr.constant v w) = pyHash (PExpr.constant v w') ∧
    pyEq PExpr.dontCare e = true ∧
    (caseDictInsert d k s).map Prod.fst = d.map Prod.fst ∧
    (caseDictInsert d k s).length = d.length ∧
    caseDictGet (caseDictInsert d k s) k = some s := by
  obtain ⟨h1, h2⟩ := caseDictInsert_match_spec k s d hmatch
  refine ⟨by simp [pyEq], rfl, by cases e <;> rfl, h1, ?_, h2⟩
  have := congrArg List.length h1
  simpa using this

theorem selectCase_dict_collapse_witness :
    pyEq (PExpr.constant 5 8) (PExpr.constant 5 16) = true ∧
    pyHash (PExpr.constant 5 8) = pyHash (PExpr.constant 5 16) ∧
    pyEq PExpr.dontCare (PExpr.constant 3 8) = true ∧
    (caseDictInsert [([PExpr.dontCare], "accept")] [PExpr.dontCare]
        "reject").map Prod.fst
      = [([PExpr.dontCare], "accept")].map Prod.fst ∧
    (caseDictInsert [([PExpr.dontCare], "accept")] [PExpr.dontCare]
        "reject").length
      = [([PExpr.dontCare], "accept")].length ∧
    caseDictGet (caseDictInsert [([PExpr.dontCare], "accept")]
        [PExpr.dontCare] "reject") [PExpr.dontCare]
      = some "reject" :=
  selectCase_dict_collapse 5 8 16 (PExpr.constant 3 8)
    [([PExpr.dontCare], "accept")] [PExpr.dontCare] "reject"
    ⟨([PExpr.dontCare], "accept"), by decide⟩

/-- Claim C10, counterexample to the claim as stated: the tuples
`(DontCare,)` and `(Constant 5 width 8,)` *compare equal* under the
pattern equality the claim describes (`DontCare.__eq__` accepts every
operand), yet parsing two cases with these pattern tuples keeps both —
their hashes differ (`hash("DontCare")` versus `hash(5)`), the
dictionary probe never compares them, the earlier target is not
replaced, and two cases survive — contradicting the claim that equal-
comparing pattern tuples collapse to one surviving case. -/
theorem parseSelectCases_equal_tuples_both_survive :
    keysEq [PExpr.dontCare] [PExpr.constant 5 8] = true ∧
    keysEq [PExpr.constant 5 8] [PExpr.dontCare] = true ∧
    parseSelectCases [([PExpr.dontCare], "a"), ([PExpr.constant 5 8], "b")]
      = [([PExpr.dontCare], "a"), ([PExpr.constant 5 8], "b")] ∧
    (parseSelectCases
        [([PExpr.dontCare], "a"), ([PExpr.constant 5 8], "b")]).length ≠ 1 := by
  decide

/-- The semantics of the seen-negation fold: the guard built from a
match formula and a conjunction of negated earlier matches is true
exactly when the match is true and every earlier match is false,
independently of the order the set of earlier matches is iterated
in. -/
theorem evalFormula_negSeen (val : PExpr → Int) :
    ∀ (seen : List (Formula PExpr)) (f : Formula PExpr),
      evalFormula val (negSeen f seen) =
        (evalFormula val f && seen.all fun s => !evalFormula val s) := by
  intro seen
  induction seen with
  | nil => intro f; simp [negSeen, evalFormula]
  | cons s rest ih =>
      intro f
      rw [show negSeen f (s :: rest)
            = negSeen (Formula.and f (Formula.not s)) rest from rfl, ih]
      simp [evalFormula, Bool.and_assoc]

/-- A case whose patterns are all `DontCare` contributes no equation:
its match formula is the accumulator unchanged. -/
theorem matchOfCaseGo_all_dontCare (selectors : List PExpr) :
    ∀ (pats : List PExpr) (i : Nat) (acc : Formula PExpr),
      pats.all isDontCare = true →
      matchOfCaseGo selectors i pats acc = some acc := by
  intro pats
  induction pats with
  | nil => intro i acc _; rfl
  | cons p ps ih =>
      intro i acc hall
      rw [List.all_cons, Bool.and_eq_true] at hall
      rw [matchOfCaseGo, if_pos hall.1]
      exact ih (i + 1) acc hall.2

/-- The function `matchesOf` succeeds componentwise: it has the length of the case
list and its entries are the per-case match formulas. -/
theorem matchesOf_spec (selectors : List PExpr) :
    ∀ (cases : List (List PExpr × String)) (ms : List (Formula PExpr)),
      matchesOf selectors cases = some ms →
      ms.length = cases.length ∧
      ∀ j, j < cases.length →
        matchOfCase selectors ((cases.getD j ([], "")).1)
          = some (ms.getD j Formula.tru) := by
  intro cases
  induction cases with
  | nil =>
      intro ms h
      rw [matchesOf] at h
      obtain rfl := Option.some.inj h
      exact ⟨rfl, fun j hj => absurd hj (by simp)⟩
  | cons c rest ih =>
      intro ms h
      rw [matchesOf] at h
      split at h
      · exact absurd h (by simp)
      next m hm =>
      split at h
      · exact absurd h (by simp)
      next ms' hms' =>
      obtain rfl : m :: ms' = ms := Option.some.inj h
      obtain ⟨hlen, hspec⟩ := ih ms' hms'
      refine ⟨by simp [hlen], ?_⟩
      intro j hj
      cases j with
      | zero => simpa using hm
      | succ j' =>
          have hj' : j' < rest.length := by simpa using hj
          simpa using hspec j' hj'

/-- An element of a list read below a `take` bound is a member of the
truncation. -/
theorem getD_mem_take {α : Type} (d : α) :
    ∀ (l : List α) (j k : Nat), k < j → k < l.length →
      l.getD k d ∈ l.take j := by
  intro l
  induction l with
  | nil => intro j k _ hk; simp at hk
  | cons a as ih =>
      intro j k hkj hk
      cases j with
      | zero => omega
      | succ j' =>
          cases k with
          | zero => simp
          | succ k' =>
              have := ih j' k' (by omega) (by simpa using hk)
              simpa using Or.inr this

/-- The guarded targets produced by the case loop, characterised
entry by entry: the j-th output pairs the j-th target with the j-th
match formula conjoined with the negations of the accumulated earlier
matches. -/
theorem symbolicTransitionGo_spec (selectors : List PExpr) :
    ∀ (cases : List (List PExpr × String)) (seen : List (Formula PExpr))
      (gs : List (Formula PExpr × String)) (ms : List (Formula PExpr)),
      symbolicTransitionGo selectors seen cases = some gs →
      matchesOf selectors cases = some ms →
      gs.length = cases.length ∧
      ∀ j, j < cases.length →
        gs.getD j (Formula.tru, "") =
          (negSeen (ms.getD j Formula.tru) (seen ++ ms.take j),
           (cases.getD j ([], "")).2) := by
  intro cases
  induction cases with
  | nil =>
      intro seen gs ms hgo hms
      rw [symbolicTransitionGo] at hgo
      rw [matchesOf] at hms
      obtain rfl := Option.some.inj hgo
      obtain rfl := Option.some.inj hms
      exact ⟨rfl, fun j hj => absurd hj (by simp)⟩
  | cons c rest ih =>
      intro seen gs ms hgo hms
      obtain ⟨pats, toState⟩ := c
      rw [symbolicTransitionGo] at hgo
      split at hgo
      · exact absurd hgo (by simp)
      next m hm =>
      split at hgo
      · exact absurd hgo (by simp)
      next tail htail =>
      obtain rfl : (negSeen m seen, toState) :: tail = gs :=
        Option.some.inj hgo
      rw [matchesOf] at hms
      split at hms
      · exact absurd hms (by simp)
      next m2 hm2 =>
      split at hms
      · exact absurd hms (by simp)
      next ms' hms' =>
      obtain rfl : m2 :: ms' = ms := Option.some.inj hms
      have hm2m : m2 = m := by
        have h12 : matchOfCase selectors pats = some m2 := hm2
        exact Option.some.inj (h12.symm.trans hm)
      subst hm2m
      obtain ⟨hlen, hspec⟩ := ih (seen ++ [m2]) tail ms' htail hms'
      refine ⟨by simp [hlen], ?_⟩
      intro j hj
      cases j with
      | zero => simp
      | succ j' =>
          have hj' : j' < rest.length := by simpa using hj
          have h2 := hspec j' hj'
          simpa [List.append_assoc] using h2

/-- Claim C5: for a transition block with a non-empty selector list,
the j-th produced guard is the j-th case's match formula conjoined with
the negation of every earlier case's match (strictly earlier cases
win); the match formula of an all-`DontCare` case is `TRUE`, so every
case listed after a `DontCare` fall-through receives an unsatisfiable
guard (it evaluates to false under every valuation). -/
theorem symbolicTransition_priority (selectors : List PExpr)
    (cases : List (List PExpr × String)) (gs : List (Formula PExpr × String))
    (ms : List (Formula PExpr))
    (hsel : selectors ≠ [])
    (hst : symbolicTransition selectors cases = some gs)
    (hms : matchesOf selectors cases = some ms) :
    gs.length = cases.length ∧
    ∀ j, j < cases.length → ∀ val : PExpr → Int,
      (gs.getD j (Formula.tru, "")).2 = (cases.getD j ([], "")).2 ∧
      evalFormula val (gs.getD j (Formula.tru, "")).1 =
        (evalFormula val (ms.getD j Formula.tru) &&
          (ms.take j).all fun m => !evalFormula val m) ∧
      (∀ k, k < j → ((cases.getD k ([], "")).1.all isDontCare) = true →
        evalFormula val (gs.getD j (Formula.tru, "")).1 = false) := by
  rw [symbolicTransition, if_neg hsel] at hst
  obtain ⟨hlen, hspec⟩ := symbolicTransitionGo_spec selectors cases [] gs ms hst hms
  obtain ⟨hmslen, hmsspec⟩ := matchesOf_spec selectors cases ms hms
  refine ⟨hlen, ?_⟩
  intro j hj val
  have hj' := hspec j hj
  refine ⟨by rw [hj'], by rw [hj']; simp [evalFormula_negSeen], ?_⟩
  intro k hk hdc
  have hmk := hmsspec k (lt_trans hk hj)
  have htruk : matchOfCase selectors ((cases.getD k ([], "")).1)
      = some Formula.tru := by
    rw [matchOfCase]
    exact matchOfCaseGo_all_dontCare selectors _ 0 Formula.tru hdc
  have htru : ms.getD k Formula.tru = Formula.tru :=
    Option.some.inj (hmk.symm.trans htruk)
  have hmem : Formula.tru ∈ ms.take j := by
    have := getD_mem_take Formula.tru ms j k hk (by omega)
    rwa [htru] at this
  rw [hj']
  simp only [evalFormula_negSeen, List.nil_append]
  cases hall : ((ms.take j).all fun m => !evalFormula val m) with
  | false => simp [hall]
  | true =>
      exfalso
      have := List.all_eq_true.mp hall Formula.tru hmem
      simp [evalFormula] at this

theorem symbolicTransition_priority_witness :
    evalFormula (fun _ => 0)
      (([(Formula.tru, "accept"),
         (Formula.and
            (Formula.and Formula.tru
              (Formula.equals (PExpr.constant 5 8) (PExpr.reference 0)))
            (Formula.not Formula.tru), "reject")].getD 1
        (Formula.tru, "")).1) = false :=
  ((symbolicTransition_priority [PExpr.reference 0]
      [([PExpr.dontCare], "accept"), ([PExpr.constant 5 8], "reject")]
      [(Formula.tru, "accept"),
       (Formula.and
          (Formula.and Formula.tru
            (Formula.equals (PExpr.constant 5 8) (PExpr.reference 0)))
          (Formula.not Formula.tru), "reject")]
      [Formula.tru,
       Formula.and Formula.tru
         (Formula.equals (PExpr.constant 5 8) (PExpr.reference 0))]
      (by decide) rfl rfl).2 1 (by decide) (fun _ => 0)).2.2 0 (by decide)
    (by decide)

/-- Setting a key that is absent appends the pair at the end of the
dictionary. -/
theorem dictSet_absent {κ ν : Type} [DecidableEq κ] (k : κ) (v : ν) :
    ∀ d : List (κ × ν), dictGet d k = none → dictSet d k v = d ++ [(k, v)] := by
  intro d
  induction d with
  | nil => intro _; rfl
  | cons hd rest ih =>
      intro h
      rw [dictGet] at h
      by_cases hk : hd.1 = k
      · rw [if_pos hk] at h
        exact Option.noConfusion h
      · rw [if_neg hk] at h
        obtain ⟨k', v'⟩ := hd
        rw [dictSet, if_neg hk, ih h]
        rfl

/-- Setting one key does not change the lookup of a different key. -/
theorem dictGet_set_ne {κ ν : Type} [DecidableEq κ] (k1 k2 : κ) (v : ν)
    (hne : k1 ≠ k2) :
    ∀ d : List (κ × ν), dictGet (dictSet d k1 v) k2 = dictGet d k2 := by
  intro d
  induction d with
  | nil => simp [dictSet, dictGet, hne]
  | cons hd rest ih =>
      obtain ⟨k', v'⟩ := hd
      by_cases hk : k' = k1
      · subst hk
        rw [dictSet, if_pos rfl, dictGet, dictGet, if_neg hne, if_neg hne]
      · rw [dictSet, if_neg hk, dictGet, dictGet]
        by_cases hk2 : k' = k2
        · rw [if_pos hk2, if_pos hk2]
        · rw [if_neg hk2, if_neg hk2, ih]

/-- Appending a most-significant variable to a chain. -/
theorem msbChainE_append (v : FVar) :
    ∀ (l : List FVar) (t : FExpr),
      msbChainE t (l ++ [v]) = msbChainE (FExpr.concat (FExpr.var v) t) l := by
  intro l
  induction l with
  | nil => intro t; rfl
  | cons u us ih => intro t; rw [List.cons_append, msbChainE, ih]; rfl

/-- The loop accumulation started from a present buffer equals the
most-significant-first chain over the reversed variable list. -/
theorem chainFrom_some :
    ∀ (vs : List FVar) (e : FExpr),
      chainFrom (some e) vs = some (msbChainE e vs.reverse) := by
  intro vs
  induction vs with
  | nil => intro e; rfl
  | cons v us ih =>
      intro e
      rw [chainFrom, ih, List.reverse_cons, msbChainE_append]

/-- Characterisation of the per-field loop of
`Extract.strongest_postcondition`: under positive field widths, fresh
store names, and no prior variables for the extracted fields, the loop
increments the manager once per field, appends the fresh variables to
`header_field_vars` in source order, leaves the renaming substitution
untouched, and accumulates the buffer concatenation variable by
variable on the most-significant side. -/
theorem extractLoop_spec (left : Bool) (ref : String) :
    ∀ (fields : List (String × Int)) (m : Nat) (pf : PureFormula)
      (subst : Subst) (nb : Option FExpr),
      (∀ f ∈ fields, 0 < f.2) →
      (∀ f ∈ fields, getHeaderFieldVar pf (ref ++ "." ++ f.1) left = none) →
      (fields.map fun f => ref ++ "." ++ f.1).Nodup →
      extractLoop left ref fields m pf subst nb =
        some (m + fields.length,
          { pf with headerFieldVars :=
              pf.headerFieldVars ++ newHeaderEntries ref left m fields },
          subst,
          chainFrom nb (fieldVarsFrom m fields)) := by
  intro fields
  induction fields with
  | nil =>
      intro m pf subst nb _ _ _
      simp [extractLoop, newHeaderEntries, fieldVarsFrom, chainFrom]
  | cons f rest ih =>
      intro m pf subst nb hpos hfresh hnodup
      obtain ⟨field, fieldSize⟩ := f
      have hposf : 0 < fieldSize := hpos (field, fieldSize) (by simp)
      have hfreshf : getHeaderFieldVar pf (ref ++ "." ++ field) left = none :=
        hfresh (field, fieldSize) (by simp)
      have habs := dictSet_absent (ref ++ "." ++ field, left)
        (⟨toString m, fieldSize⟩ : FVar) pf.headerFieldVars hfreshf
      have hnames := hnodup
      rw [List.map_cons, List.nodup_cons] at hnames
      have hset : setHeaderFieldVar pf (ref ++ "." ++ field) left
            ⟨toString m, fieldSize⟩
          = { pf with headerFieldVars := pf.headerFieldVars
              ++ [((ref ++ "." ++ field, left), ⟨toString m, fieldSize⟩)] } := by
        rw [setHeaderFieldVar, habs]
      have hpos' : ∀ f' ∈ rest, 0 < f'.2 :=
        fun f' hf' => hpos f' (by simp [hf'])
      have hfresh' : ∀ f' ∈ rest,
          getHeaderFieldVar
            { pf with headerFieldVars := pf.headerFieldVars
                ++ [((ref ++ "." ++ field, left), ⟨toString m, fieldSize⟩)] }
            (ref ++ "." ++ f'.1) left = none := by
        intro f' hf'
        have hne : ((ref ++ "." ++ field : String), left)
            ≠ ((ref ++ "." ++ f'.1 : String), left) := by
          intro hcontra
          apply hnames.1
          have heq : (ref ++ "." ++ field : String) = ref ++ "." ++ f'.1 :=
            congrArg Prod.fst hcontra
          rw [show ref ++ "." ++ (field, fieldSize).1
              = ref ++ "." ++ field from rfl, heq]
          exact List.mem_map_of_mem _ hf'
        rw [← hset, getHeaderFieldVar, setHeaderFieldVar]
        rw [dictGet_set_ne _ _ _ hne]
        exact hfresh f' (by simp [hf'])
      cases nb with
      | none =>
          rw [extractLoop]
          simp only [freshVariable, mkVariable, if_neg (not_le.mpr hposf),
            hfreshf]
          rw [hset, ih (m + 1) _ subst (some (FExpr.var ⟨toString m, fieldSize⟩))
            hpos' hfresh' hnames.2]
          rw [fieldVarsFrom, chainFrom]
          simp only [newHeaderEntries, List.append_assoc, List.singleton_append,
            List.length_cons]
          rw [show m + 1 + rest.length = m + (rest.length + 1) from by omega]
      | some nbe =>
          rw [extractLoop]
          simp only [freshVariable, mkVariable, if_neg (not_le.mpr hposf),
            hfreshf]
          rw [hset, ih (m + 1) _ subst
            (some (FExpr.concat (FExpr.var ⟨toString m, fieldSize⟩) nbe))
            hpos' hfresh' hnames.2]
          rw [fieldVarsFrom, chainFrom]
          simp only [newHeaderEntries, List.append_assoc, List.singleton_append,
            List.length_cons]
          rw [show m + 1 + rest.length = m + (rest.length + 1) from by omega]

/-- Claim C2 (amended): `Extract.strongest_postcondition` allocates a
fresh variable per field in source order with the IR-declared widths
and installs them in `header_vars` (appended in source order); however
no equation is appended to the root — instead every occurrence of the
old buffer variable `B` in the root is *substituted* by the
concatenation of the fresh field variables in *reverse* source order
(`f_k ++ … ++ f_1`), with the fresh remainder `R` of width
`w_B − w_H` at the least-significant end when `w_B > w_H`; and
`buf_vars[side]` is set to absent when `w_B = w_H` but is *left at the
old variable `B`* (not `R`) when `w_B > w_H`. -/
theorem extractSP_characterisation
    (m : Nat) (pf : PureFormula) (left : Bool) (ref : String)
    (fields : List (String × Int)) (B : FVar)
    (hbuf : getBufferVar pf left = some B)
    (hne : fields ≠ [])
    (hpos : ∀ f ∈ fields, 0 < f.2)
    (hfresh : ∀ f ∈ fields,
      getHeaderFieldVar pf (ref ++ "." ++ f.1) left = none)
    (hnodup : (fields.map fun f => ref ++ "." ++ f.1).Nodup) :
    (0 < B.size - sumFieldWidths fields →
      extractSP m pf left ref fields =
        some ({ pf with
            headerFieldVars := pf.headerFieldVars
              ++ newHeaderEntries ref left (m + 1) fields,
            root := Formula.subst
              [(B, msbChainE
                  (FExpr.var ⟨toString m, B.size - sumFieldWidths fields⟩)
                  ((fieldVarsFrom (m + 1) fields).reverse))] pf.root },
          m + 1 + fields.length) ∧
      getBufferVar ({ pf with
          headerFieldVars := pf.headerFieldVars
            ++ newHeaderEntries ref left (m + 1) fields,
          root := Formula.subst
            [(B, msbChainE
                (FExpr.var ⟨toString m, B.size - sumFieldWidths fields⟩)
                ((fieldVarsFrom (m + 1) fields).reverse))] pf.root }) left
        = some B) ∧
    (B.size = sumFieldWidths fields →
      extractSP m pf left ref fields =
        some ({ pf with
            headerFieldVars := pf.headerFieldVars
              ++ newHeaderEntries ref left m fields,
            root := Formula.subst
              [(B, msbChainE
                  (FExpr.var ⟨toString m, (fields.headD ("", 0)).2⟩)
                  ((fieldVarsFrom (m + 1) fields.tail).reverse))] pf.root,
            bufL := if left then none else pf.bufL,
            bufR := if left then pf.bufR else none },
          m + fields.length)) := by
  constructor
  · intro hA
    have hloop := extractLoop_spec left ref fields (m + 1) pf []
      (some (FExpr.var ⟨toString m, B.size - sumFieldWidths fields⟩))
      hpos hfresh hnodup
    constructor
    · rw [extractSP]
      simp only [hbuf]
      rw [if_neg (by omega)]
      simp only [freshVariable, mkVariable, if_neg (by omega :
        ¬ B.size - sumFieldWidths fields ≤ 0)]
      rw [hloop, chainFrom_some]
      simp only [PureFormula.substitute, dictSet]
    · rcases left with _ | _ <;>
        simp only [getBufferVar] at hbuf ⊢ <;> exact hbuf
  · intro hB
    obtain ⟨f0, ftail, rfl⟩ := List.exists_cons_of_ne_nil hne
    have hfresh0 : ∀ f ∈ f0 :: ftail,
        getHeaderFieldVar (setBufferVar pf left none)
          (ref ++ "." ++ f.1) left = none := by
      intro f hf
      have h0 := hfresh f hf
      rcases left with _ | _ <;>
        simpa [getHeaderFieldVar, setBufferVar] using h0
    have hloop := extractLoop_spec left ref (f0 :: ftail) m
      (setBufferVar pf left none) [] none hpos hfresh0 hnodup
    rw [extractSP]
    simp only [hbuf]
    rw [if_pos (by omega)]
    rw [hloop]
    have hchain : chainFrom none (fieldVarsFrom m (f0 :: ftail))
        = some (msbChainE (FExpr.var ⟨toString m, f0.2⟩)
            ((fieldVarsFrom (m + 1) ftail).reverse)) := by
      rw [fieldVarsFrom, chainFrom, chainFrom_some]
    rw [hchain]
    simp only [PureFormula.substitute, dictSet]
    have hbufv : (setBufferVar pf left none).headerFieldVars
        = pf.headerFieldVars := by
      rcases left with _ | _ <;> rfl
    have hroot : (setBufferVar pf left none).root = pf.root := by
      rcases left with _ | _ <;> rfl
    rcases left with _ | _ <;>
      simp only [setBufferVar, List.headD, List.tail_cons] at hloop ⊢ <;>
      rfl

/-- Claim C2, counterexample to the claim as stated: extracting a
two-field 16-bit header (`hdr.eth` with `dst`/`src` of 8 bits) from a
24-bit buffer variable `B` leaves the pure formula's buffer variable at
the *old* `B` of width 24 — not at a fresh remainder `R` of width
`w_B − w_H = 8` — and leaves the root `TRUE`: no constraint relating
`B` to `f_1 ++ f_2 ++ R` is appended (the fresh remainder `0` and the
field variables `1`, `2` are only substituted into the root, which here
contains no occurrence of `B`). -/
theorem extractSP_keeps_stale_buffer_variable :
    extractSP 0 ⟨Formula.tru, [], some ⟨"B", 24⟩, none⟩ true "hdr.eth"
        [("dst", 8), ("src", 8)] =
      some (⟨Formula.tru,
              [(("hdr.eth.dst", true), ⟨"1", 8⟩),
               (("hdr.eth.src", true), ⟨"2", 8⟩)],
              some ⟨"B", 24⟩, none⟩, 3) ∧
    ¬ ((24 : Int)
        = 24 - sumFieldWidths [(("dst" : String), (8 : Int)), ("src", 8)]) := by
  constructor
  · rfl
  · decide

theorem extractSP_characterisation_witness :
    (extractSP 0 ⟨Formula.tru, [], some ⟨"B", 24⟩, none⟩ true "hdr.eth"
        [("dst", 8), ("src", 8)] =
      some (⟨Formula.subst
              [(⟨"B", 24⟩, msbChainE
                  (FExpr.var ⟨toString 0,
                    24 - sumFieldWidths [(("dst" : String), (8 : Int)),
                      ("src", 8)]⟩)
                  ((fieldVarsFrom 1
                    [(("dst" : String), (8 : Int)), ("src", 8)]).reverse))]
              Formula.tru,
             [] ++ newHeaderEntries "hdr.eth" true 1
               [(("dst" : String), (8 : Int)), ("src", 8)],
             some ⟨"B", 24⟩, none⟩,
           0 + 1 + 2)) ∧
    getBufferVar
      ⟨Formula.subst
          [(⟨"B", 24⟩, msbChainE
              (FExpr.var ⟨toString 0,
                24 - sumFieldWidths [(("dst" : String), (8 : Int)),
                  ("src", 8)]⟩)
              ((fieldVarsFrom 1
                [(("dst" : String), (8 : Int)), ("src", 8)]).reverse))]
          Formula.tru,
         [] ++ newHeaderEntries "hdr.eth" true 1
           [(("dst" : String), (8 : Int)), ("src", 8)],
         some ⟨"B", 24⟩, none⟩ true = some ⟨"B", 24⟩ :=
  (extractSP_characterisation 0 ⟨Formula.tru, [], some ⟨"B", 24⟩, none⟩ true
      "hdr.eth" [("dst", 8), ("src", 8)] ⟨"B", 24⟩ rfl (by decide) (by decide)
      (fun _ _ => rfl) (by decide)).1 (by decide)

end Octopus
